import Mathlib

/-!
Formal model of `dfss/process.py`: the d2 estimator (trapezoidal numerical
integration of the expected-range integrand), the process-capability
computation (pandas rolling ranges, Ppk/Cpk) and the p-value estimator.

Floating-point numbers are modelled as exact rationals extended with `nan`
and signed infinities; rounding error and signed zero are abstracted away
(finite arithmetic is exact).  Two operations of the source have irrational
values and are abstracted as function parameters: the standard normal CDF
used through `scipy.stats.norm` (`Phi : ℚ → ℚ`) and the square root inside
`pandas.Series.std` (`sqrtQ : ℚ → ℚ`).  Theorems assume only the properties
of these functions that they actually need (CDF values in `[0, 1]`,
nondegeneracy at the middle grid point, `sqrt 0 = 0`, ...), all of which hold
for the true functions.
-/

/-- An IEEE-754-like extended value: a finite number, `+inf`, `-inf`, or
`nan`.  Models the numpy/pandas float semantics relevant to `process.py`:
division by zero produces a signed infinity (zero behaves as `+0.0`), `0/0`
and other indeterminate forms produce `nan`, and `nan` is contagious. -/
inductive F where
  | nan : F
  | pinf : F
  | ninf : F
  | fin : ℚ → F
deriving DecidableEq

/-- Addition on extended values (IEEE semantics, finite part exact). -/
def F.add : F → F → F
  | F.nan, _ => F.nan
  | _, F.nan => F.nan
  | F.pinf, F.ninf => F.nan
  | F.ninf, F.pinf => F.nan
  | F.pinf, _ => F.pinf
  | _, F.pinf => F.pinf
  | F.ninf, _ => F.ninf
  | _, F.ninf => F.ninf
  | F.fin a, F.fin b => F.fin (a + b)

/-- Subtraction on extended values (IEEE semantics, finite part exact). -/
def F.sub : F → F → F
  | F.nan, _ => F.nan
  | _, F.nan => F.nan
  | F.pinf, F.pinf => F.nan
  | F.ninf, F.ninf => F.nan
  | F.pinf, _ => F.pinf
  | F.ninf, _ => F.ninf
  | F.fin _, F.pinf => F.ninf
  | F.fin _, F.ninf => F.pinf
  | F.fin a, F.fin b => F.fin (a - b)

/-- Multiplication on extended values (IEEE semantics; `0 * inf = nan`). -/
def F.mul : F → F → F
  | F.nan, _ => F.nan
  | _, F.nan => F.nan
  | F.pinf, F.pinf => F.pinf
  | F.pinf, F.ninf => F.ninf
  | F.ninf, F.pinf => F.ninf
  | F.ninf, F.ninf => F.pinf
  | F.pinf, F.fin b => if 0 < b then F.pinf else if b < 0 then F.ninf else F.nan
  | F.fin a, F.pinf => if 0 < a then F.pinf else if a < 0 then F.ninf else F.nan
  | F.ninf, F.fin b => if 0 < b then F.ninf else if b < 0 then F.pinf else F.nan
  | F.fin a, F.ninf => if 0 < a then F.ninf else if a < 0 then F.pinf else F.nan
  | F.fin a, F.fin b => F.fin (a * b)

/-- Division on extended values.  A nonzero finite value divided by zero gives
a signed infinity (the exact zero stands for `+0.0`); `0/0` gives `nan`. -/
def F.div : F → F → F
  | F.nan, _ => F.nan
  | _, F.nan => F.nan
  | F.pinf, F.pinf => F.nan
  | F.pinf, F.ninf => F.nan
  | F.ninf, F.pinf => F.nan
  | F.ninf, F.ninf => F.nan
  | F.pinf, F.fin b => if b < 0 then F.ninf else F.pinf
  | F.ninf, F.fin b => if b < 0 then F.pinf else F.ninf
  | F.fin _, F.pinf => F.fin 0
  | F.fin _, F.ninf => F.fin 0
  | F.fin a, F.fin b =>
      if b = 0 then (if 0 < a then F.pinf else if a < 0 then F.ninf else F.nan)
      else F.fin (a / b)

/-- Binary minimum as computed by `np.min` on a two-element array:
`nan` propagates, otherwise the order is `-inf < finite < +inf`. -/
def F.min : F → F → F
  | F.nan, _ => F.nan
  | _, F.nan => F.nan
  | F.ninf, _ => F.ninf
  | _, F.ninf => F.ninf
  | F.pinf, y => y
  | F.fin a, F.pinf => F.fin a
  | F.fin a, F.fin b => F.fin (Min.min a b)

/-- Whether an extended value is `nan`. -/
def F.isNan : F → Bool
  | F.nan => true
  | _ => false

/-- `pandas.Series.mean` with the default `skipna=True`: drop the `nan`
entries, then divide the IEEE sum of the rest by their count; an empty (or
all-`nan`) series has mean `nan`. -/
def pdMean (l : List F) : F :=
  let kept := l.filter (fun x => !(F.isNan x))
  if kept.length = 0 then F.nan
  else F.div (kept.foldr F.add (F.fin 0)) (F.fin (kept.length : ℚ))

/-- `pandas.Series.std` with the default `ddof=1`: the square root of the sum
of squared deviations from the mean divided by `n - 1`; `nan` when the series
has fewer than two entries.  `sqrtQ` abstracts the (irrational-valued) square
root. -/
def pdStd (sqrtQ : ℚ → ℚ) (xs : List ℚ) : F :=
  if xs.length < 2 then F.nan
  else F.fin (sqrtQ
    ((xs.map (fun x => (x - xs.sum / (xs.length : ℚ)) ^ 2)).sum / ((xs.length : ℚ) - 1)))

/-- `pandas.Series.min`: the least element, `nan` for an empty series. -/
def pdMin (xs : List ℚ) : F :=
  match xs.min? with
  | none => F.nan
  | some m => F.fin m

/-- `pandas.Series.max`: the greatest element, `nan` for an empty series. -/
def pdMax (xs : List ℚ) : F :=
  match xs.max? with
  | none => F.nan
  | some m => F.fin m

/-- The maximum of a (nonempty) rolling window; the default value is never
reached for the windows produced by `rollingMax`. -/
def winMax (l : List ℚ) : ℚ := (l.max?).getD 0

/-- The minimum of a (nonempty) rolling window. -/
def winMin (l : List ℚ) : ℚ := (l.min?).getD 0

/-- The slice of `xs` that `samples.rolling(w)` aggregates at position `i`:
the `w` entries ending at index `i`. -/
def winAt (xs : List ℚ) (w i : ℕ) : List ℚ := (xs.drop (i + 1 - w)).take w

/-- `samples.rolling(w).max()`: a series aligned with `samples` whose entry at
position `i` is the maximum of the length-`w` window ending at `i`, and `nan`
for the first `w - 1` positions where no complete window exists. -/
def rollingMax (w : ℕ) (xs : List ℚ) : List F :=
  (List.range xs.length).map
    (fun i => if w ≤ i + 1 then F.fin (winMax (winAt xs w i)) else F.nan)

/-- `samples.rolling(w).min()`, aligned like `rollingMax`. -/
def rollingMin (w : ℕ) (xs : List ℚ) : List F :=
  (List.range xs.length).map
    (fun i => if w ≤ i + 1 then F.fin (winMin (winAt xs w i)) else F.nan)

/-- The integration grid of `np.linspace(-20.0, 20.0, 1001)`:
`gridX i = -20 + i * 0.04`. -/
def gridX (i : ℕ) : ℚ := -20 + (i : ℚ) * (1 / 25)

/-- `np.trapz` with constant spacing `dx` over `N + 1` samples `f 0 .. f N`:
`dx * Σ (f i + f (i+1)) / 2`. -/
def trapz (f : ℕ → ℚ) (N : ℕ) (dx : ℚ) : ℚ :=
  dx * ∑ i in Finset.range N, (f i + f (i + 1)) / 2

/-- The integrand of `calculate_d2`:
`1 - (1 - Phi x) ^ n - (Phi x) ^ n`. -/
def d2Integrand (Phi : ℚ → ℚ) (n : ℕ) (x : ℚ) : ℚ :=
  1 - (1 - Phi x) ^ n - Phi x ^ n

/-- `calculate_d2` from `process.py`: the trapezoidal rule on 1001 equally
spaced points over `[-20, 20]` applied to the expected-range integrand, with
the standard normal CDF abstracted as `Phi`. -/
def calculate_d2 (Phi : ℚ → ℚ) (n : ℕ) : ℚ :=
  trapz (fun i => d2Integrand Phi n (gridX i)) 1000 (1 / 25)

/-- The result record of `calculate_process` (a `pd.Series` with fixed keys in
the source); `sampleSize` is the integer `len(samples)`. -/
structure ProcessResult where
  sampleSize : ℕ
  mean : F
  std : F
  std_within : F
  ppk : F
  cpk : F
  min : F
  max : F
deriving DecidableEq

/-- `calculate_process` from `process.py`.  `samples` is the measurement
series (finite floats), `Phi` the standard normal CDF used by `calculate_d2`,
`sqrtQ` the square root inside the pandas std.  Mirrors the source line by
line: overall mean and `ddof=1` std, rolling max minus rolling min,
`std_within = (Rbar/d2).mean()`, and the two `np.min` expressions for ppk and
cpk. -/
def calculate_process (Phi sqrtQ : ℚ → ℚ) (samples : List ℚ) (LSL USL : ℚ)
    (w : ℕ) : ProcessResult :=
  let mu := pdMean (samples.map F.fin)
  let std := pdStd sqrtQ samples
  let Rbar := List.zipWith F.sub (rollingMax w samples) (rollingMin w samples)
  let std_within := pdMean (Rbar.map (fun r => F.div r (F.fin (calculate_d2 Phi w))))
  let ppk := F.min (F.div (F.sub (F.fin USL) mu) (F.mul (F.fin 3) std))
                   (F.div (F.sub mu (F.fin LSL)) (F.mul (F.fin 3) std))
  let cpk := F.min (F.div (F.sub (F.fin USL) mu) (F.mul (F.fin 3) std_within))
                   (F.div (F.sub mu (F.fin LSL)) (F.mul (F.fin 3) std_within))
  { sampleSize := samples.length
    mean := mu
    std := std
    std_within := std_within
    ppk := ppk
    cpk := cpk
    min := pdMin samples
    max := pdMax samples }

/-- `scipy.stats.norm(loc, scale).cdf x = Phi ((x - loc) / scale)`: the CDF of
the location-scale normal family in terms of the standard normal CDF. -/
def normCdf (Phi : ℚ → ℚ) (loc scale x : ℚ) : ℚ := Phi ((x - loc) / scale)

/-- `np.mean` of a plain list of finite values: `nan` when empty, otherwise
the exact arithmetic mean. -/
def npMean (l : List ℚ) : F :=
  if l.length = 0 then F.nan else F.fin (l.sum / (l.length : ℚ))

/-- `calculate_p_value` from `process.py`: the mean over the samples of the
two-sided tail probability `2 * min(1 - cdf s, cdf s)` under the normal
distribution with the given mean and std. -/
def calculate_p_value (Phi : ℚ → ℚ) (mean std : ℚ) (samples : List ℚ) : F :=
  npMean (samples.map
    (fun s => 2 * Min.min (1 - normCdf Phi mean std s) (normCdf Phi mean std s)))

/-- Spec-side definition ("for every contiguous window of size `window` in the
sample series, sliding by one position at a time, producing
`length - window + 1` windows when `length ≥ window`, else zero windows,
compute max of window minus min of window"). -/
def movingRanges (w : ℕ) (xs : List ℚ) : List ℚ :=
  (List.range (xs.length + 1 - w)).map
    (fun j => winMax ((xs.drop j).take w) - winMin ((xs.drop j).take w))

/-- Spec-side arithmetic mean of a list of rationals. -/
def listMean (l : List ℚ) : ℚ := l.sum / (l.length : ℚ)

/-- A concrete stand-in CDF used to instantiate theorems whose hypotheses only
require CDF-like bounds: the constant function `1/2`. -/
def PhiHalf : ℚ → ℚ := fun _ => 1 / 2

theorem F.isNan_fin (a : ℚ) : F.isNan (F.fin a) = false := rfl

theorem F.sub_fin_fin (a b : ℚ) : F.sub (F.fin a) (F.fin b) = F.fin (a - b) := rfl

theorem F.sub_nan_nan : F.sub F.nan F.nan = F.nan := rfl

theorem F.add_fin_fin (a b : ℚ) : F.add (F.fin a) (F.fin b) = F.fin (a + b) := rfl

theorem F.mul_fin_fin (a b : ℚ) : F.mul (F.fin a) (F.fin b) = F.fin (a * b) := rfl

theorem F.min_fin_fin (a b : ℚ) : F.min (F.fin a) (F.fin b) = F.fin (Min.min a b) := rfl

theorem F.div_nan_left (x : F) : F.div F.nan x = F.nan := by cases x <;> rfl

theorem F.div_fin_fin (a b : ℚ) (hb : b ≠ 0) :
    F.div (F.fin a) (F.fin b) = F.fin (a / b) := by
  simp [F.div, hb]

theorem F.div_fin_zero_pos (a : ℚ) (ha : 0 < a) :
    F.div (F.fin a) (F.fin 0) = F.pinf := by
  simp [F.div, ha]

theorem F.mul_fin_nan : F.mul (F.fin 3) F.nan = F.nan := rfl

theorem F.div_fin_nan (x : F) : F.div x F.nan = F.nan := by cases x <;> rfl

theorem F.min_nan_left (x : F) : F.min F.nan x = F.nan := by cases x <;> rfl

theorem foldr_add_map_fin (l : List ℚ) :
    (l.map F.fin).foldr F.add (F.fin 0) = F.fin l.sum := by
  induction l with
  | nil => rfl
  | cons x t ih => simp [ih, F.add_fin_fin]

theorem pdMean_filter_eq (l : List F) (ys : List ℚ)
    (h : l.filter (fun x => !(F.isNan x)) = ys.map F.fin) (hys : ys ≠ []) :
    pdMean l = F.fin (ys.sum / (ys.length : ℚ)) := by
  have hlen : ys.length ≠ 0 := fun h0 => hys (List.length_eq_zero.mp h0)
  have hcast : ((ys.length : ℚ)) ≠ 0 := Nat.cast_ne_zero.mpr hlen
  simp only [pdMean, h, List.length_map]
  rw [if_neg hlen, foldr_add_map_fin, F.div_fin_fin _ _ hcast]

theorem pdMean_map_fin (xs : List ℚ) (h : xs ≠ []) :
    pdMean (xs.map F.fin) = F.fin (xs.sum / (xs.length : ℚ)) := by
  refine pdMean_filter_eq _ xs ?_ h
  rw [List.filter_map]
  simp [Function.comp_def, F.isNan_fin]

theorem pdMean_all_nan (l : List F) (h : l.filter (fun x => !(F.isNan x)) = []) :
    pdMean l = F.nan := by
  simp [pdMean, h]

theorem rat_min?_eq_some {xs : List ℚ} {a : ℚ} :
    xs.min? = some a ↔ a ∈ xs ∧ ∀ b ∈ xs, a ≤ b := by
  haveI : Std.Antisymm ((· : ℚ) ≤ ·) := ⟨le_antisymm⟩
  exact List.min?_eq_some_iff (fun a => le_refl a)
    (fun a b => min_choice a b) (fun a b c => le_min_iff)

theorem rat_max?_eq_some {xs : List ℚ} {a : ℚ} :
    xs.max? = some a ↔ a ∈ xs ∧ ∀ b ∈ xs, b ≤ a := by
  haveI : Std.Antisymm ((· : ℚ) ≤ ·) := ⟨le_antisymm⟩
  exact List.max?_eq_some_iff (fun a => le_refl a)
    (fun a b => max_choice a b) (fun a b c => max_le_iff)

theorem min?_perm {xs ys : List ℚ} (h : xs.Perm ys) : xs.min? = ys.min? := by
  cases hx : xs.min? with
  | none =>
      have : xs = [] := List.min?_eq_none_iff.mp hx
      subst this
      have : ys = [] := h.symm.eq_nil
      simp [this]
  | some a =>
      obtain ⟨hmem, hle⟩ := rat_min?_eq_some.mp hx
      exact (rat_min?_eq_some.mpr
        ⟨(h.mem_iff).mp hmem, fun b hb => hle b ((h.mem_iff).mpr hb)⟩).symm

theorem max?_perm {xs ys : List ℚ} (h : xs.Perm ys) : xs.max? = ys.max? := by
  cases hx : xs.max? with
  | none =>
      have : xs = [] := List.max?_eq_none_iff.mp hx
      subst this
      have : ys = [] := h.symm.eq_nil
      simp [this]
  | some a =>
      obtain ⟨hmem, hle⟩ := rat_max?_eq_some.mp hx
      exact (rat_max?_eq_some.mpr
        ⟨(h.mem_iff).mp hmem, fun b hb => hle b ((h.mem_iff).mpr hb)⟩).symm

theorem max?_all_eq {l : List ℚ} {v : ℚ} (hne : l ≠ []) (hall : ∀ x ∈ l, x = v) :
    l.max? = some v := by
  cases l with
  | nil => exact absurd rfl hne
  | cons x t =>
      refine rat_max?_eq_some.mpr ⟨?_, ?_⟩
      · have : x = v := hall x (List.mem_cons_self x t)
        rw [← this]; exact List.mem_cons_self x t
      · intro b hb; rw [hall b hb]

theorem min?_all_eq {l : List ℚ} {v : ℚ} (hne : l ≠ []) (hall : ∀ x ∈ l, x = v) :
    l.min? = some v := by
  cases l with
  | nil => exact absurd rfl hne
  | cons x t =>
      refine rat_min?_eq_some.mpr ⟨?_, ?_⟩
      · have : x = v := hall x (List.mem_cons_self x t)
        rw [← this]; exact List.mem_cons_self x t
      · intro b hb; rw [hall b hb]

theorem winMax_all_eq {l : List ℚ} {v : ℚ} (hne : l ≠ []) (hall : ∀ x ∈ l, x = v) :
    winMax l = v := by
  unfold winMax
  rw [max?_all_eq hne hall]
  rfl

theorem winMin_all_eq {l : List ℚ} {v : ℚ} (hne : l ≠ []) (hall : ∀ x ∈ l, x = v) :
    winMin l = v := by
  unfold winMin
  rw [min?_all_eq hne hall]
  rfl

theorem rolling_sub_eq (w : ℕ) (xs : List ℚ) :
    List.zipWith F.sub (rollingMax w xs) (rollingMin w xs)
      = (List.range xs.length).map
          (fun i => if w ≤ i + 1 then
              F.fin (winMax (winAt xs w i) - winMin (winAt xs w i)) else F.nan) := by
  unfold rollingMax rollingMin
  rw [List.zipWith_map, List.zipWith_same]
  apply List.map_congr_left
  intro i _
  by_cases h : w ≤ i + 1
  · simp [h, F.sub_fin_fin]
  · simp [h, F.sub_nan_nan]

theorem rbar_div_filter (w : ℕ) (xs : List ℚ) (c : ℚ)
    (hw1 : 1 ≤ w) (hwL : w ≤ xs.length) (hc : c ≠ 0) :
    ((List.zipWith F.sub (rollingMax w xs) (rollingMin w xs)).map
        (fun r => F.div r (F.fin c))).filter (fun x => !(F.isNan x))
      = (movingRanges w xs).map (fun r => F.fin (r / c)) := by
  rw [rolling_sub_eq, List.map_map]
  have hfun : ∀ i ∈ List.range xs.length,
      ((fun r => F.div r (F.fin c)) ∘
        (fun i => if w ≤ i + 1 then
            F.fin (winMax (winAt xs w i) - winMin (winAt xs w i)) else F.nan)) i
      = (fun i => if w ≤ i + 1 then
          F.fin ((winMax (winAt xs w i) - winMin (winAt xs w i)) / c) else F.nan) i := by
    intro i _
    by_cases h : w ≤ i + 1
    · simp [h, F.div_fin_fin _ _ hc]
    · simp [h, F.div_nan_left]
  rw [List.map_congr_left hfun, List.filter_map]
  have hsplit : xs.length = (w - 1) + (xs.length + 1 - w) := by omega
  rw [hsplit, List.range_add, List.filter_append]
  have hleft : (List.range (w - 1)).filter
      ((fun x => !(F.isNan x)) ∘
        (fun i => if w ≤ i + 1 then
            F.fin ((winMax (winAt xs w i) - winMin (winAt xs w i)) / c) else F.nan)) = [] := by
    rw [List.filter_eq_nil_iff]
    intro i hi
    have hiw : ¬ (w ≤ i + 1) := by
      have := List.mem_range.mp hi
      omega
    simp [Function.comp_def, hiw, F.isNan]
  have hright : ((List.range (xs.length + 1 - w)).map ((w - 1) + ·)).filter
      ((fun x => !(F.isNan x)) ∘
        (fun i => if w ≤ i + 1 then
            F.fin ((winMax (winAt xs w i) - winMin (winAt xs w i)) / c) else F.nan))
      = (List.range (xs.length + 1 - w)).map ((w - 1) + ·) := by
    rw [List.filter_eq_self]
    intro x hx
    obtain ⟨j, _, rfl⟩ := List.mem_map.mp hx
    have hjw : w ≤ (w - 1) + j + 1 := by omega
    simp [Function.comp_def, hjw, F.isNan]
  rw [hleft, hright, List.nil_append, List.map_map, movingRanges, List.map_map]
  apply List.map_congr_left
  intro j _
  have hjw : w ≤ (w - 1) + j + 1 := by omega
  have harg : (w - 1) + j + 1 - w = j := by omega
  have hwin : winAt xs w ((w - 1) + j) = (xs.drop j).take w := by
    unfold winAt
    rw [harg]
  simp [Function.comp_def, hjw, hwin]

theorem sum_map_div (l : List ℚ) (c : ℚ) :
    (l.map (fun r => r / c)).sum = l.sum / c := by
  induction l with
  | nil => simp
  | cons x t ih => simp [ih, add_div]

theorem movingRanges_length (w : ℕ) (xs : List ℚ) :
    (movingRanges w xs).length = xs.length + 1 - w := by
  simp [movingRanges]

theorem std_within_eq (Phi sqrtQ : ℚ → ℚ) (xs : List ℚ) (LSL USL : ℚ) (w : ℕ)
    (hw1 : 1 ≤ w) (hwL : w ≤ xs.length) (hd : calculate_d2 Phi w ≠ 0) :
    (calculate_process Phi sqrtQ xs LSL USL w).std_within
      = F.fin (listMean (movingRanges w xs) / calculate_d2 Phi w) := by
  have hproj : (calculate_process Phi sqrtQ xs LSL USL w).std_within
      = pdMean ((List.zipWith F.sub (rollingMax w xs) (rollingMin w xs)).map
          (fun r => F.div r (F.fin (calculate_d2 Phi w)))) := rfl
  rw [hproj]
  have hR : movingRanges w xs ≠ [] := by
    have : (movingRanges w xs).length = xs.length + 1 - w := movingRanges_length w xs
    intro hnil
    rw [hnil] at this
    simp at this
    omega
  have hcomp : (movingRanges w xs).map (fun r => F.fin (r / calculate_d2 Phi w))
      = ((movingRanges w xs).map (fun r => r / calculate_d2 Phi w)).map F.fin := by
    rw [List.map_map]
    rfl
  have hmapne : (movingRanges w xs).map (fun r => r / calculate_d2 Phi w) ≠ [] := by
    intro hnil
    exact hR (List.map_eq_nil_iff.mp hnil)
  rw [pdMean_filter_eq _ ((movingRanges w xs).map (fun r => r / calculate_d2 Phi w))
      (by rw [rbar_div_filter w xs _ hw1 hwL hd, hcomp]) hmapne]
  rw [sum_map_div, List.length_map]
  unfold listMean
  rw [div_div, div_div, mul_comm]

theorem trapz_nonneg (f : ℕ → ℚ) (N : ℕ) (dx : ℚ)
    (hdx : 0 ≤ dx) (hf : ∀ i, 0 ≤ f i) : 0 ≤ trapz f N dx := by
  unfold trapz
  apply mul_nonneg hdx
  apply Finset.sum_nonneg
  intro i _
  have h1 := hf i
  have h2 := hf (i + 1)
  positivity

theorem trapz_mono (f g : ℕ → ℚ) (N : ℕ) (dx : ℚ)
    (hdx : 0 ≤ dx) (hfg : ∀ i, f i ≤ g i) : trapz f N dx ≤ trapz g N dx := by
  unfold trapz
  apply mul_le_mul_of_nonneg_left _ hdx
  apply Finset.sum_le_sum
  intro i _
  have h1 := hfg i
  have h2 := hfg (i + 1)
  linarith

theorem trapz_const (c : ℚ) (N : ℕ) (dx : ℚ) :
    trapz (fun _ => c) N dx = dx * N * c := by
  unfold trapz
  rw [Finset.sum_congr rfl (fun i _ => by ring_nf : ∀ i ∈ Finset.range N, (c + c) / 2 = c)]
  rw [Finset.sum_const, Finset.card_range, nsmul_eq_mul, mul_assoc]

theorem d2Integrand_nonneg (Phi : ℚ → ℚ) (n : ℕ) (x : ℚ)
    (hb : 0 ≤ Phi x ∧ Phi x ≤ 1) (hn : 1 ≤ n) : 0 ≤ d2Integrand Phi n x := by
  unfold d2Integrand
  have h1 : (1 - Phi x) ^ n ≤ 1 - Phi x :=
    pow_le_of_le_one (by linarith [hb.2]) (by linarith [hb.1]) (by omega)
  have h2 : Phi x ^ n ≤ Phi x :=
    pow_le_of_le_one hb.1 hb.2 (by omega)
  linarith

theorem d2Integrand_mono (Phi : ℚ → ℚ) (m n : ℕ) (x : ℚ)
    (hb : 0 ≤ Phi x ∧ Phi x ≤ 1) (hmn : m ≤ n) :
    d2Integrand Phi m x ≤ d2Integrand Phi n x := by
  unfold d2Integrand
  have h1 : (1 - Phi x) ^ n ≤ (1 - Phi x) ^ m :=
    pow_le_pow_of_le_one (by linarith [hb.2]) (by linarith [hb.1]) hmn
  have h2 : Phi x ^ n ≤ Phi x ^ m :=
    pow_le_pow_of_le_one hb.1 hb.2 hmn
  linarith

theorem calculate_d2_nonneg (Phi : ℚ → ℚ) (n : ℕ)
    (hb : ∀ x, 0 ≤ Phi x ∧ Phi x ≤ 1) (hn : 1 ≤ n) : 0 ≤ calculate_d2 Phi n := by
  unfold calculate_d2
  exact trapz_nonneg _ _ _ (by norm_num)
    (fun i => d2Integrand_nonneg Phi n (gridX i) (hb (gridX i)) hn)

theorem calculate_d2_one (Phi : ℚ → ℚ) : calculate_d2 Phi 1 = 0 := by
  unfold calculate_d2
  have h : (fun i => d2Integrand Phi 1 (gridX i)) = fun _ => (0 : ℚ) := by
    funext i
    unfold d2Integrand
    ring
  rw [h, trapz_const]
  ring

theorem calculate_d2_mono (Phi : ℚ → ℚ) (m n : ℕ)
    (hb : ∀ x, 0 ≤ Phi x ∧ Phi x ≤ 1) (hmn : m ≤ n) :
    calculate_d2 Phi m ≤ calculate_d2 Phi n := by
  unfold calculate_d2
  exact trapz_mono _ _ _ _ (by norm_num)
    (fun i => d2Integrand_mono Phi m n (gridX i) (hb (gridX i)) hmn)

theorem gridX_mid : gridX 500 = 0 := by
  unfold gridX
  norm_num

theorem calculate_d2_pos (Phi : ℚ → ℚ) (n : ℕ)
    (hb : ∀ x, 0 ≤ Phi x ∧ Phi x ≤ 1) (hmid : 0 < Phi 0 ∧ Phi 0 < 1)
    (hn : 2 ≤ n) : 0 < calculate_d2 Phi n := by
  have hint : ∀ i, 0 ≤ d2Integrand Phi n (gridX i) :=
    fun i => d2Integrand_nonneg Phi n (gridX i) (hb (gridX i)) (by omega)
  have hmidpos : 0 < d2Integrand Phi n (gridX 500) := by
    rw [gridX_mid]
    unfold d2Integrand
    set p := Phi 0 with hp
    have h1 : (1 - p) ^ n ≤ (1 - p) ^ 2 :=
      pow_le_pow_of_le_one (by linarith [hmid.2]) (by linarith [hmid.1]) hn
    have h2 : p ^ n ≤ p ^ 2 :=
      pow_le_pow_of_le_one (le_of_lt hmid.1) (le_of_lt hmid.2) hn
    have h3 : (1 - p) ^ 2 + p ^ 2 < 1 := by nlinarith [hmid.1, hmid.2]
    linarith
  unfold calculate_d2 trapz
  apply mul_pos (by norm_num)
  have hterm : ∀ i ∈ Finset.range 1000,
      0 ≤ (d2Integrand Phi n (gridX i) + d2Integrand Phi n (gridX (i + 1))) / 2 := by
    intro i _
    have := hint i
    have := hint (i + 1)
    positivity
  have h500 : (0 : ℚ) <
      (d2Integrand Phi n (gridX 500) + d2Integrand Phi n (gridX (500 + 1))) / 2 := by
    have := hint (500 + 1)
    linarith
  calc (0 : ℚ) < (d2Integrand Phi n (gridX 500) + d2Integrand Phi n (gridX (500 + 1))) / 2 :=
        h500
    _ ≤ ∑ i in Finset.range 1000,
          (d2Integrand Phi n (gridX i) + d2Integrand Phi n (gridX (i + 1))) / 2 :=
        Finset.single_le_sum hterm (by norm_num)

theorem calculate_d2_PhiHalf (n : ℕ) :
    calculate_d2 PhiHalf n = 40 * (1 - 2 * (1 / 2) ^ n) := by
  unfold calculate_d2
  have h : (fun i => d2Integrand PhiHalf n (gridX i))
      = fun _ => (1 - 2 * (1 / 2) ^ n : ℚ) := by
    funext i
    unfold d2Integrand PhiHalf
    ring
  rw [h, trapz_const]
  norm_num

theorem calculate_d2_PhiHalf_two : calculate_d2 PhiHalf 2 = 20 := by
  rw [calculate_d2_PhiHalf]
  norm_num

/-- C4: for every CDF-like `Phi` (all values in `[0, 1]`) and every integer
`n ≥ 1`, `calculate_d2 Phi n` is non-negative, and `calculate_d2 Phi 1 = 0`
exactly (the integrand is identically zero for `n = 1`, so the trapezoidal
sum is zero). -/
theorem C4_d2_nonneg_and_d2_one (Phi : ℚ → ℚ) (n : ℕ)
    (hb : ∀ x, 0 ≤ Phi x ∧ Phi x ≤ 1) (hn : 1 ≤ n) :
    0 ≤ calculate_d2 Phi n ∧ calculate_d2 Phi 1 = 0 :=
  ⟨calculate_d2_nonneg Phi n hb hn, calculate_d2_one Phi⟩

/-- Witness for C4 at `Phi = PhiHalf` and `n = 3`. -/
theorem C4_d2_nonneg_and_d2_one_witness :
    (∀ x : ℚ, 0 ≤ PhiHalf x ∧ PhiHalf x ≤ 1) ∧ 1 ≤ 3 ∧
      (0 ≤ calculate_d2 PhiHalf 3 ∧ calculate_d2 PhiHalf 1 = 0) :=
  ⟨fun x => by unfold PhiHalf; norm_num, by norm_num,
    C4_d2_nonneg_and_d2_one PhiHalf 3
      (fun x => by unfold PhiHalf; norm_num) (by norm_num)⟩

/-- C5: `calculate_d2` is monotonically non-decreasing on integers `n ≥ 1`,
for every CDF-like `Phi`: if `1 ≤ m ≤ n` then
`calculate_d2 Phi m ≤ calculate_d2 Phi n`. -/
theorem C5_d2_monotone (Phi : ℚ → ℚ) (m n : ℕ)
    (hb : ∀ x, 0 ≤ Phi x ∧ Phi x ≤ 1) (hm : 1 ≤ m) (hmn : m ≤ n) :
    calculate_d2 Phi m ≤ calculate_d2 Phi n :=
  calculate_d2_mono Phi m n hb hmn

/-- Witness for C5 at `Phi = PhiHalf`, `m = 2`, `n = 5`. -/
theorem C5_d2_monotone_witness :
    (∀ x : ℚ, 0 ≤ PhiHalf x ∧ PhiHalf x ≤ 1) ∧ 1 ≤ 2 ∧ 2 ≤ 5 ∧
      calculate_d2 PhiHalf 2 ≤ calculate_d2 PhiHalf 5 :=
  ⟨fun x => by unfold PhiHalf; norm_num, by norm_num, by norm_num,
    C5_d2_monotone PhiHalf 2 5
      (fun x => by unfold PhiHalf; norm_num) (by norm_num) (by norm_num)⟩

/-- C10: for any `Phi` whatsoever, `calculate_d2 Phi 0 = -40` (the integrand
`1 - (1 - Phi x) ^ 0 - (Phi x) ^ 0` is identically `-1`, and the trapezoidal
rule over `[-20, 20]` integrates it to `-40`), a negative value: the
non-negativity of `calculate_d2` holds only under the precondition `n ≥ 1`. -/
theorem C10_d2_zero_arg (Phi : ℚ → ℚ) :
    calculate_d2 Phi 0 = -40 ∧ calculate_d2 Phi 0 < 0 := by
  have h : calculate_d2 Phi 0 = -40 := by
    unfold calculate_d2
    have hint : (fun i => d2Integrand Phi 0 (gridX i)) = fun _ => (-1 : ℚ) := by
      funext i
      unfold d2Integrand
      norm_num
    rw [hint, trapz_const]
    norm_num
  exact ⟨h, by rw [h]; norm_num⟩

/-- C1: for every sample series of length `L` and window `w` with
`2 ≤ w ≤ L` (and any CDF-like `Phi`), the `std_within` field returned by
`calculate_process` equals the arithmetic mean of the `L - w + 1` per-window
ranges divided by `calculate_d2 w`: the code formulation `mean(Rbar/d2)` over
the aligned rolling max-minus-min sequence equals `mean(R)/d2`. -/
theorem C1_std_within_eq_mean_range_div_d2 (Phi sqrtQ : ℚ → ℚ) (xs : List ℚ)
    (LSL USL : ℚ) (w : ℕ)
    (hb : ∀ x, 0 ≤ Phi x ∧ Phi x ≤ 1) (hmid : 0 < Phi 0 ∧ Phi 0 < 1)
    (hw : 2 ≤ w) (hwL : w ≤ xs.length) :
    (calculate_process Phi sqrtQ xs LSL USL w).std_within
      = F.fin (listMean (movingRanges w xs) / calculate_d2 Phi w) :=
  std_within_eq Phi sqrtQ xs LSL USL w (by omega) hwL
    (ne_of_gt (calculate_d2_pos Phi w hb hmid hw))

/-- Witness for C1 on the spec test series `[1..8]` with `w = 4`. -/
theorem C1_std_within_eq_mean_range_div_d2_witness :
    (∀ x : ℚ, 0 ≤ PhiHalf x ∧ PhiHalf x ≤ 1) ∧ (0 < PhiHalf 0 ∧ PhiHalf 0 < 1)
      ∧ 2 ≤ 4 ∧ 4 ≤ ([1, 2, 3, 4, 5, 6, 7, 8] : List ℚ).length
      ∧ (calculate_process PhiHalf id [1, 2, 3, 4, 5, 6, 7, 8] 0 10 4).std_within
          = F.fin (listMean (movingRanges 4 [1, 2, 3, 4, 5, 6, 7, 8])
              / calculate_d2 PhiHalf 4) :=
  ⟨fun x => by unfold PhiHalf; norm_num, by unfold PhiHalf; norm_num,
    by norm_num, by norm_num,
    C1_std_within_eq_mean_range_div_d2 PhiHalf id [1, 2, 3, 4, 5, 6, 7, 8] 0 10 4
      (fun x => by unfold PhiHalf; norm_num) (by unfold PhiHalf; norm_num)
      (by norm_num) (by norm_num)⟩

/-- C2: whenever the record returned by `calculate_process` has finite fields
`mean = mu`, `std = s` and `std_within = sw` with `s ≠ 0` and `sw ≠ 0`, its
`ppk` field equals `min((USL - mu)/(3*s), (mu - LSL)/(3*s))` and its `cpk`
field equals `min((USL - mu)/(3*sw), (mu - LSL)/(3*sw))`. -/
theorem C2_ppk_cpk_formulas (Phi sqrtQ : ℚ → ℚ) (xs : List ℚ) (LSL USL : ℚ)
    (w : ℕ) (mu s sw : ℚ)
    (hmu : (calculate_process Phi sqrtQ xs LSL USL w).mean = F.fin mu)
    (hs : (calculate_process Phi sqrtQ xs LSL USL w).std = F.fin s)
    (hsw : (calculate_process Phi sqrtQ xs LSL USL w).std_within = F.fin sw)
    (hs0 : s ≠ 0) (hsw0 : sw ≠ 0) :
    (calculate_process Phi sqrtQ xs LSL USL w).ppk
        = F.fin (Min.min ((USL - mu) / (3 * s)) ((mu - LSL) / (3 * s)))
      ∧ (calculate_process Phi sqrtQ xs LSL USL w).cpk
        = F.fin (Min.min ((USL - mu) / (3 * sw)) ((mu - LSL) / (3 * sw))) := by
  have hppk : (calculate_process Phi sqrtQ xs LSL USL w).ppk
      = F.min
        (F.div (F.sub (F.fin USL) ((calculate_process Phi sqrtQ xs LSL USL w).mean))
          (F.mul (F.fin 3) ((calculate_process Phi sqrtQ xs LSL USL w).std)))
        (F.div (F.sub ((calculate_process Phi sqrtQ xs LSL USL w).mean) (F.fin LSL))
          (F.mul (F.fin 3) ((calculate_process Phi sqrtQ xs LSL USL w).std))) := rfl
  have hcpk : (calculate_process Phi sqrtQ xs LSL USL w).cpk
      = F.min
        (F.div (F.sub (F.fin USL) ((calculate_process Phi sqrtQ xs LSL USL w).mean))
          (F.mul (F.fin 3) ((calculate_process Phi sqrtQ xs LSL USL w).std_within)))
        (F.div (F.sub ((calculate_process Phi sqrtQ xs LSL USL w).mean) (F.fin LSL))
          (F.mul (F.fin 3) ((calculate_process Phi sqrtQ xs LSL USL w).std_within))) := rfl
  have h3s : (3 : ℚ) * s ≠ 0 := mul_ne_zero (by norm_num) hs0
  have h3sw : (3 : ℚ) * sw ≠ 0 := mul_ne_zero (by norm_num) hsw0
  constructor
  · rw [hppk, hmu, hs, F.sub_fin_fin, F.sub_fin_fin, F.mul_fin_fin,
      F.div_fin_fin _ _ h3s, F.div_fin_fin _ _ h3s, F.min_fin_fin]
  · rw [hcpk, hmu, hsw, F.sub_fin_fin, F.sub_fin_fin, F.mul_fin_fin,
      F.div_fin_fin _ _ h3sw, F.div_fin_fin _ _ h3sw, F.min_fin_fin]

/-- Witness for C2 on `[0, 0, 2, 2]` with `w = 2`, spec limits `(-10, 10)`. -/
theorem C2_ppk_cpk_formulas_witness :
    (calculate_process PhiHalf id [0, 0, 2, 2] (-10) 10 2).mean = F.fin 1
    ∧ (calculate_process PhiHalf id [0, 0, 2, 2] (-10) 10 2).std = F.fin (4 / 3)
    ∧ (calculate_process PhiHalf id [0, 0, 2, 2] (-10) 10 2).std_within
        = F.fin (1 / 30)
    ∧ (4 / 3 : ℚ) ≠ 0 ∧ (1 / 30 : ℚ) ≠ 0
    ∧ ((calculate_process PhiHalf id [0, 0, 2, 2] (-10) 10 2).ppk
        = F.fin (Min.min ((10 - 1) / (3 * (4 / 3))) ((1 - (-10)) / (3 * (4 / 3))))
      ∧ (calculate_process PhiHalf id [0, 0, 2, 2] (-10) 10 2).cpk
        = F.fin (Min.min ((10 - 1) / (3 * (1 / 30)))
            ((1 - (-10)) / (3 * (1 / 30))))) := by
  have hmu : (calculate_process PhiHalf id [0, 0, 2, 2] (-10) 10 2).mean
      = F.fin 1 := by
    have h : (calculate_process PhiHalf id [0, 0, 2, 2] (-10) 10 2).mean
        = pdMean ([0, 0, 2, 2].map F.fin) := rfl
    rw [h, pdMean_map_fin _ (by simp)]
    norm_num
  have hs : (calculate_process PhiHalf id [0, 0, 2, 2] (-10) 10 2).std
      = F.fin (4 / 3) := by
    have h : (calculate_process PhiHalf id [0, 0, 2, 2] (-10) 10 2).std
        = pdStd id [0, 0, 2, 2] := rfl
    rw [h]
    norm_num [pdStd]
  have hsw : (calculate_process PhiHalf id [0, 0, 2, 2] (-10) 10 2).std_within
      = F.fin (1 / 30) := by
    rw [std_within_eq PhiHalf id [0, 0, 2, 2] (-10) 10 2 (by norm_num) (by norm_num)
        (by rw [calculate_d2_PhiHalf_two]; norm_num)]
    rw [calculate_d2_PhiHalf_two]
    norm_num [listMean, movingRanges, winMax, winMin, winAt, List.range_succ]
  exact ⟨hmu, hs, hsw, by norm_num, by norm_num,
    C2_ppk_cpk_formulas PhiHalf id [0, 0, 2, 2] (-10) 10 2 1 (4 / 3) (1 / 30)
      hmu hs hsw (by norm_num) (by norm_num)⟩

/-- C3: for every nonempty sample series and every `std > 0`,
`calculate_p_value` returns the arithmetic mean over the samples of
`2 * min(1 - cdf s, cdf s)`, where `cdf` is the CDF of the normal
distribution with the given mean and std
(`normCdf Phi mean std s = Phi ((s - mean) / std)`). -/
theorem C3_p_value_is_mean_tail_prob (Phi : ℚ → ℚ) (mean std : ℚ)
    (samples : List ℚ) (hne : samples ≠ []) (hstd : 0 < std) :
    calculate_p_value Phi mean std samples
      = F.fin ((samples.map (fun s =>
            2 * Min.min (1 - normCdf Phi mean std s) (normCdf Phi mean std s))).sum
          / (samples.length : ℚ)) := by
  unfold calculate_p_value npMean
  rw [List.length_map, if_neg (fun h => hne (List.length_eq_zero.mp h))]

/-- Witness for C3 at `mean = 0`, `std = 1`, `samples = [0]`. -/
theorem C3_p_value_is_mean_tail_prob_witness :
    ([0] : List ℚ) ≠ [] ∧ (0 : ℚ) < 1
    ∧ calculate_p_value PhiHalf 0 1 [0]
        = F.fin ((([0] : List ℚ).map (fun s =>
              2 * Min.min (1 - normCdf PhiHalf 0 1 s) (normCdf PhiHalf 0 1 s))).sum
            / (([0] : List ℚ).length : ℚ)) :=
  ⟨by simp, by norm_num,
    C3_p_value_is_mean_tail_prob PhiHalf 0 1 [0] (by simp) (by norm_num)⟩

theorem pdMean_perm (xs ys : List ℚ) (hp : xs.Perm ys) :
    pdMean (xs.map F.fin) = pdMean (ys.map F.fin) := by
  by_cases hxe : xs = []
  · subst hxe
    rw [hp.symm.eq_nil]
  · have hyne : ys ≠ [] := by
      intro h
      exact hxe ((hp.symm.symm.trans (h ▸ List.Perm.refl ys)).eq_nil)
    rw [pdMean_map_fin _ hxe, pdMean_map_fin _ hyne, hp.sum_eq, hp.length_eq]

theorem pdStd_perm (sqrtQ : ℚ → ℚ) (xs ys : List ℚ) (hp : xs.Perm ys) :
    pdStd sqrtQ xs = pdStd sqrtQ ys := by
  unfold pdStd
  rw [hp.sum_eq, hp.length_eq]
  by_cases h2 : ys.length < 2
  · rw [if_pos h2, if_pos h2]
  · rw [if_neg h2, if_neg h2]
    have hmaps : (xs.map (fun x => (x - ys.sum / (ys.length : ℚ)) ^ 2)).Perm
        (ys.map (fun x => (x - ys.sum / (ys.length : ℚ)) ^ 2)) := hp.map _
    rw [hmaps.sum_eq]

theorem pdMin_perm (xs ys : List ℚ) (hp : xs.Perm ys) : pdMin xs = pdMin ys := by
  unfold pdMin
  rw [min?_perm hp]

theorem pdMax_perm (xs ys : List ℚ) (hp : xs.Perm ys) : pdMax xs = pdMax ys := by
  unfold pdMax
  rw [max?_perm hp]

/-- C7: on a constant sample series (`x = v` throughout, `LSL < v < USL`,
`2 ≤ w ≤ length`), `calculate_process` yields `std = 0`, `std_within = 0`,
`ppk = +inf` and `cpk = +inf`, with no error: both numerator sides of each
`min` are positive and divided by zero. -/
theorem C7_constant_series_infinite_indices (Phi sqrtQ : ℚ → ℚ) (xs : List ℚ)
    (v LSL USL : ℚ) (w : ℕ)
    (hc : ∀ x ∈ xs, x = v) (hw : 2 ≤ w) (hwL : w ≤ xs.length)
    (hL : LSL < v) (hU : v < USL)
    (hb : ∀ x, 0 ≤ Phi x ∧ Phi x ≤ 1) (hmid : 0 < Phi 0 ∧ Phi 0 < 1)
    (hsq : sqrtQ 0 = 0) :
    (calculate_process Phi sqrtQ xs LSL USL w).std = F.fin 0
    ∧ (calculate_process Phi sqrtQ xs LSL USL w).std_within = F.fin 0
    ∧ (calculate_process Phi sqrtQ xs LSL USL w).ppk = F.pinf
    ∧ (calculate_process Phi sqrtQ xs LSL USL w).cpk = F.pinf := by
  have hlen2 : 2 ≤ xs.length := le_trans hw hwL
  have hne : xs ≠ [] := by
    intro h
    rw [h] at hlen2
    simp at hlen2
  have hlq : ((xs.length : ℚ)) ≠ 0 := Nat.cast_ne_zero.mpr (by omega)
  have hsum : xs.sum = xs.length • v := List.sum_eq_card_nsmul xs v hc
  have hmean : xs.sum / (xs.length : ℚ) = v := by
    rw [hsum, nsmul_eq_mul]
    field_simp
  have hmu : (calculate_process Phi sqrtQ xs LSL USL w).mean = F.fin v := by
    have h : (calculate_process Phi sqrtQ xs LSL USL w).mean
        = pdMean (xs.map F.fin) := rfl
    rw [h, pdMean_map_fin _ hne, hmean]
  have hstd : (calculate_process Phi sqrtQ xs LSL USL w).std = F.fin 0 := by
    have h : (calculate_process Phi sqrtQ xs LSL USL w).std = pdStd sqrtQ xs := rfl
    rw [h]
    unfold pdStd
    rw [if_neg (by omega)]
    have hdev : (xs.map (fun x => (x - xs.sum / (xs.length : ℚ)) ^ 2)).sum = 0 := by
      apply List.sum_eq_zero
      intro y hy
      obtain ⟨x, hx, rfl⟩ := List.mem_map.mp hy
      rw [hmean, hc x hx]
      simp
    rw [hdev, zero_div, hsq]
  have hd2 : calculate_d2 Phi w ≠ 0 := ne_of_gt (calculate_d2_pos Phi w hb hmid hw)
  have hsw : (calculate_process Phi sqrtQ xs LSL USL w).std_within = F.fin 0 := by
    rw [std_within_eq Phi sqrtQ xs LSL USL w (by omega) hwL hd2]
    have hR : ∀ r ∈ movingRanges w xs, r = 0 := by
      intro r hr
      simp only [movingRanges, List.mem_map, List.mem_range] at hr
      obtain ⟨j, hj, rfl⟩ := hr
      have hwinne : (xs.drop j).take w ≠ [] := by
        intro hnil
        have h1 : ((xs.drop j).take w).length = 0 := by rw [hnil]; rfl
        rw [List.length_take, List.length_drop] at h1
        omega
      have hwinall : ∀ x ∈ (xs.drop j).take w, x = v :=
        fun x hx => hc x (List.drop_subset j xs (List.take_subset w (xs.drop j) hx))
      rw [winMax_all_eq hwinne hwinall, winMin_all_eq hwinne hwinall, sub_self]
    have hmean0 : listMean (movingRanges w xs) = 0 := by
      unfold listMean
      rw [List.sum_eq_zero hR, zero_div]
    rw [hmean0, zero_div]
  have hppk : (calculate_process Phi sqrtQ xs LSL USL w).ppk = F.pinf := by
    have h : (calculate_process Phi sqrtQ xs LSL USL w).ppk
        = F.min
          (F.div (F.sub (F.fin USL) ((calculate_process Phi sqrtQ xs LSL USL w).mean))
            (F.mul (F.fin 3) ((calculate_process Phi sqrtQ xs LSL USL w).std)))
          (F.div (F.sub ((calculate_process Phi sqrtQ xs LSL USL w).mean) (F.fin LSL))
            (F.mul (F.fin 3) ((calculate_process Phi sqrtQ xs LSL USL w).std))) := rfl
    rw [h, hmu, hstd, F.sub_fin_fin, F.sub_fin_fin, F.mul_fin_fin, mul_zero,
      F.div_fin_zero_pos _ (by linarith), F.div_fin_zero_pos _ (by linarith)]
    rfl
  have hcpk : (calculate_process Phi sqrtQ xs LSL USL w).cpk = F.pinf := by
    have h : (calculate_process Phi sqrtQ xs LSL USL w).cpk
        = F.min
          (F.div (F.sub (F.fin USL) ((calculate_process Phi sqrtQ xs LSL USL w).mean))
            (F.mul (F.fin 3) ((calculate_process Phi sqrtQ xs LSL USL w).std_within)))
          (F.div (F.sub ((calculate_process Phi sqrtQ xs LSL USL w).mean) (F.fin LSL))
            (F.mul (F.fin 3) ((calculate_process Phi sqrtQ xs LSL USL w).std_within))) := rfl
    rw [h, hmu, hsw, F.sub_fin_fin, F.sub_fin_fin, F.mul_fin_fin, mul_zero,
      F.div_fin_zero_pos _ (by linarith), F.div_fin_zero_pos _ (by linarith)]
    rfl
  exact ⟨hstd, hsw, hppk, hcpk⟩

/-- Witness for C7 on `[5, 5, 5, 5]` with `w = 2`, spec limits `(0, 10)`. -/
theorem C7_constant_series_infinite_indices_witness :
    (∀ x ∈ ([5, 5, 5, 5] : List ℚ), x = 5) ∧ 2 ≤ 2
      ∧ 2 ≤ ([5, 5, 5, 5] : List ℚ).length ∧ (0 : ℚ) < 5 ∧ (5 : ℚ) < 10
      ∧ (∀ x : ℚ, 0 ≤ PhiHalf x ∧ PhiHalf x ≤ 1)
      ∧ (0 < PhiHalf 0 ∧ PhiHalf 0 < 1) ∧ id (0 : ℚ) = 0
      ∧ ((calculate_process PhiHalf id [5, 5, 5, 5] 0 10 2).std = F.fin 0
        ∧ (calculate_process PhiHalf id [5, 5, 5, 5] 0 10 2).std_within = F.fin 0
        ∧ (calculate_process PhiHalf id [5, 5, 5, 5] 0 10 2).ppk = F.pinf
        ∧ (calculate_process PhiHalf id [5, 5, 5, 5] 0 10 2).cpk = F.pinf) := by
  have hall : ∀ x ∈ ([5, 5, 5, 5] : List ℚ), x = 5 := by
    intro x hx
    simp at hx
    simp [hx]
  exact ⟨hall, by norm_num, by norm_num, by norm_num, by norm_num,
    fun x => by unfold PhiHalf; norm_num, by unfold PhiHalf; norm_num, rfl,
    C7_constant_series_infinite_indices PhiHalf id [5, 5, 5, 5] 5 0 10 2
      hall (by norm_num) (by norm_num) (by norm_num) (by norm_num)
      (fun x => by unfold PhiHalf; norm_num) (by unfold PhiHalf; norm_num) rfl⟩

/-- C8: when the series is shorter than the window, no complete rolling
window exists: `std_within` (and hence `cpk`) is `nan` rather than a finite
number, and no error is raised (the function is total). -/
theorem C8_short_series_nan (Phi sqrtQ : ℚ → ℚ) (xs : List ℚ) (LSL USL : ℚ)
    (w : ℕ) (hwL : xs.length < w) :
    (calculate_process Phi sqrtQ xs LSL USL w).std_within = F.nan
    ∧ (calculate_process Phi sqrtQ xs LSL USL w).cpk = F.nan := by
  have hproj : (calculate_process Phi sqrtQ xs LSL USL w).std_within
      = pdMean ((List.zipWith F.sub (rollingMax w xs) (rollingMin w xs)).map
          (fun r => F.div r (F.fin (calculate_d2 Phi w)))) := rfl
  have hsw : (calculate_process Phi sqrtQ xs LSL USL w).std_within = F.nan := by
    rw [hproj, rolling_sub_eq, List.map_map]
    apply pdMean_all_nan
    rw [List.filter_eq_nil_iff]
    intro x hx
    simp only [List.mem_map, List.mem_range] at hx
    obtain ⟨i, hi, rfl⟩ := hx
    have hiw : ¬ (w ≤ i + 1) := by omega
    simp [Function.comp_def, hiw, F.div_nan_left, F.isNan]
  have hcproj : (calculate_process Phi sqrtQ xs LSL USL w).cpk
      = F.min
        (F.div (F.sub (F.fin USL) ((calculate_process Phi sqrtQ xs LSL USL w).mean))
          (F.mul (F.fin 3) ((calculate_process Phi sqrtQ xs LSL USL w).std_within)))
        (F.div (F.sub ((calculate_process Phi sqrtQ xs LSL USL w).mean) (F.fin LSL))
          (F.mul (F.fin 3) ((calculate_process Phi sqrtQ xs LSL USL w).std_within))) := rfl
  refine ⟨hsw, ?_⟩
  rw [hcproj, hsw, F.mul_fin_nan, F.div_fin_nan, F.div_fin_nan, F.min_nan_left]

/-- Witness for C8 on the two-element series `[1, 2]` with window `8`. -/
theorem C8_short_series_nan_witness :
    ([1, 2] : List ℚ).length < 8
    ∧ ((calculate_process PhiHalf id [1, 2] 0 10 8).std_within = F.nan
      ∧ (calculate_process PhiHalf id [1, 2] 0 10 8).cpk = F.nan) :=
  ⟨by norm_num, C8_short_series_nan PhiHalf id [1, 2] 0 10 8 (by norm_num)⟩

/-- C9: permuting the sample series leaves the `mean`, `std`, `min` and `max`
fields of `calculate_process` unchanged (order-insensitive), while there is a
concrete series and permutation of it on which `std_within` differs
(order-sensitive): `[0,0,3,3]` vs `[0,3,0,3]` with `w = 2`. -/
theorem C9_perm_invariance_and_sensitivity (Phi sqrtQ : ℚ → ℚ) (LSL USL : ℚ)
    (w : ℕ) (xs ys : List ℚ) (hp : xs.Perm ys) :
    ((calculate_process Phi sqrtQ xs LSL USL w).mean
        = (calculate_process Phi sqrtQ ys LSL USL w).mean
      ∧ (calculate_process Phi sqrtQ xs LSL USL w).std
        = (calculate_process Phi sqrtQ ys LSL USL w).std
      ∧ (calculate_process Phi sqrtQ xs LSL USL w).min
        = (calculate_process Phi sqrtQ ys LSL USL w).min
      ∧ (calculate_process Phi sqrtQ xs LSL USL w).max
        = (calculate_process Phi sqrtQ ys LSL USL w).max)
    ∧ (([0, 0, 3, 3] : List ℚ).Perm [0, 3, 0, 3]
      ∧ (calculate_process PhiHalf id [0, 0, 3, 3] (-10) 10 2).std_within
          ≠ (calculate_process PhiHalf id [0, 3, 0, 3] (-10) 10 2).std_within) := by
  constructor
  · refine ⟨pdMean_perm xs ys hp, pdStd_perm sqrtQ xs ys hp,
      pdMin_perm xs ys hp, pdMax_perm xs ys hp⟩
  · constructor
    · exact List.Perm.cons 0 (List.Perm.swap 3 0 [3])
    · have h1 : (calculate_process PhiHalf id [0, 0, 3, 3] (-10) 10 2).std_within
          = F.fin (1 / 20) := by
        rw [std_within_eq PhiHalf id [0, 0, 3, 3] (-10) 10 2 (by norm_num)
            (by norm_num) (by rw [calculate_d2_PhiHalf_two]; norm_num)]
        rw [calculate_d2_PhiHalf_two]
        norm_num [listMean, movingRanges, winMax, winMin, winAt, List.range_succ]
      have h2 : (calculate_process PhiHalf id [0, 3, 0, 3] (-10) 10 2).std_within
          = F.fin (3 / 20) := by
        rw [std_within_eq PhiHalf id [0, 3, 0, 3] (-10) 10 2 (by norm_num)
            (by norm_num) (by rw [calculate_d2_PhiHalf_two]; norm_num)]
        rw [calculate_d2_PhiHalf_two]
        norm_num [listMean, movingRanges, winMax, winMin, winAt, List.range_succ]
      rw [h1, h2]
      intro h
      have := F.fin.inj h
      norm_num at this

/-- Witness for C9 on the permuted pair `[1, 2]` and `[2, 1]`. -/
theorem C9_perm_invariance_and_sensitivity_witness :
    ([1, 2] : List ℚ).Perm [2, 1]
    ∧ (((calculate_process PhiHalf id [1, 2] 0 10 2).mean
        = (calculate_process PhiHalf id [2, 1] 0 10 2).mean
      ∧ (calculate_process PhiHalf id [1, 2] 0 10 2).std
        = (calculate_process PhiHalf id [2, 1] 0 10 2).std
      ∧ (calculate_process PhiHalf id [1, 2] 0 10 2).min
        = (calculate_process PhiHalf id [2, 1] 0 10 2).min
      ∧ (calculate_process PhiHalf id [1, 2] 0 10 2).max
        = (calculate_process PhiHalf id [2, 1] 0 10 2).max)
    ∧ (([0, 0, 3, 3] : List ℚ).Perm [0, 3, 0, 3]
      ∧ (calculate_process PhiHalf id [0, 0, 3, 3] (-10) 10 2).std_within
          ≠ (calculate_process PhiHalf id [0, 3, 0, 3] (-10) 10 2).std_within)) :=
  ⟨List.Perm.swap 2 1 [],
    C9_perm_invariance_and_sensitivity PhiHalf id 0 10 2 [1, 2] [2, 1]
      (List.Perm.swap 2 1 [])⟩
